import Mathlib

/-!
A shallow embedding of the frequency-dictionary build script
(SymSpell.FrequencyDictionary/script.py): loading a per-language wordlist,
merging decoded n-gram shard files into a count table, and emitting the
ranked, truncated frequency records.  Python dictionaries are embedded as
insertion-ordered association lists, uncaught Python exceptions as
Except.error, and the stable sort performed by
sorted(words.items(), key=lambda item: item[1], reverse=True) as
List.mergeSort with a count-descending comparison.
-/

namespace FreqDict

/-- Embedding of Python str.split() with no separator argument: splits on
runs of whitespace and never yields empty fields.  Works on the character
list of the string; the accumulator holds the current field reversed. -/
def splitWsAux : List Char → List Char → List String
  | [], cur => if cur.isEmpty then [] else [String.mk cur.reverse]
  | c :: cs, cur =>
    if c.isWhitespace then
      (if cur.isEmpty then [] else [String.mk cur.reverse]) ++ splitWsAux cs []
    else
      splitWsAux cs (c :: cur)

/-- Python line.split() on a whole string. -/
def pySplit (s : String) : List String := splitWsAux s.data []

/-- Embedding of Python str.lower() restricted to ASCII case mapping; the
corpus tokens and wordlist entries exercised by the claims are ASCII. -/
def pyLower (s : String) : String := String.mk (s.data.map Char.toLower)

/-- Value of a run of ASCII digits, none as soon as a non-digit occurs. -/
def digitsVal : List Char → Nat → Option Nat
  | [], acc => some acc
  | c :: cs, acc =>
    if c.isDigit then digitsVal cs (acc * 10 + (c.toNat - 48)) else none

/-- Embedding of Python int(s) on the whitespace-free tokens produced by
pySplit: an optional sign followed by at least one ASCII digit; anything
else raises ValueError, embedded as none. -/
def pyInt (s : String) : Option Int :=
  match s.data with
  | [] => none
  | c :: cs =>
    if c = '-' then
      if cs.isEmpty then none else (digitsVal cs 0).map (fun n => -(n : Int))
    else if c = '+' then
      if cs.isEmpty then none else (digitsVal cs 0).map (fun n => (n : Int))
    else
      (digitsVal (c :: cs) 0).map (fun n => (n : Int))

/-- CountTable: insertion-ordered association list embedding the Python
dict called words, mapping each vocabulary word to its accumulated count. -/
abbrev CountTable := List (String × Int)

/-- Keys of the table, in insertion order. -/
def tkeys (t : CountTable) : List String := t.map Prod.fst

/-- Embedding of the membership test name in words on the Python dict. -/
def hasKey (t : CountTable) (k : String) : Bool := (tkeys t).contains k

/-- Embedding of words[k] += n: adds n to the value stored at key k,
leaving insertion order and all other entries unchanged (keys are unique
by construction, so the map touches at most one entry). -/
def addAt (t : CountTable) (k : String) (n : Int) : CountTable :=
  t.map (fun p => if p.1 = k then (p.1, p.2 + n) else p)

/-- Embedding of words[k] = 0 in the wordlist-loading loop: resets an
existing key in place, otherwise appends the new key, as a Python dict
assignment does. -/
def setZero (t : CountTable) (k : String) : CountTable :=
  if hasKey t k then t.map (fun p => if p.1 = k then (p.1, (0 : Int)) else p)
  else t ++ [(k, 0)]

/-- Loop of the wordlist loading (script.py lines 70-71) over the remaining
lines: words[line.split()[0].lower()] = 0.  On a line with no fields,
line.split()[0] raises an uncaught IndexError, embedded as Except.error. -/
def loadWordlistAux (acc : CountTable) : List String → Except Unit CountTable
  | [] => .ok acc
  | l :: ls =>
    match (pySplit l).head? with
    | none => .error ()
    | some w => loadWordlistAux (setZero acc (pyLower w)) ls

/-- Embedding of the wordlist-loading loop (script.py lines 68-71). -/
def loadWordlist (ls : List String) : Except Unit CountTable :=
  loadWordlistAux [] ls

/-- Embedding of one iteration of the merge-loop body (script.py lines
76-80): data = line.split(); name = data[0].lower(); if name in words:
words[name] += int(data[2]).  The body is not wrapped in a try block, so
IndexError (an empty line, or a vocabulary word followed by fewer than 3
fields) and ValueError (a non-integer third field) abort the script,
embedded as Except.error. -/
def mergeLine (t : CountTable) (line : String) : Except Unit CountTable :=
  match pySplit line with
  | [] => .error ()
  | w :: rest =>
    if hasKey t (pyLower w) then
      match rest[1]? with
      | none => .error ()
      | some c =>
        match pyInt c with
        | none => .error ()
        | some n => .ok (addAt t (pyLower w) n)
    else .ok t

/-- Merge of the lines of one decoded shard file, in order. -/
def mergeLines (t : CountTable) : List String → Except Unit CountTable
  | [] => .ok t
  | l :: ls =>
    match mergeLine t l with
    | .error e => .error e
    | .ok u => mergeLines u ls

/-- Merge over the decoded shard files present on disk, in order
(script.py lines 73-81). -/
def mergeFiles (t : CountTable) : List (List String) → Except Unit CountTable
  | [] => .ok t
  | f :: fs =>
    match mergeLines t f with
    | .error e => .error e
    | .ok u => mergeFiles u fs

/-- Configured output bound (script.py line 7). -/
def max_final_words : Nat := 100000

/-- Count-descending comparison used by the emission sort: a may precede b
exactly when the count of a is at least the count of b. -/
def countLE (a b : String × Int) : Bool := decide (b.2 ≤ a.2)

/-- Embedding of sorted(words.items(), key=lambda item: item[1],
reverse=True) (script.py line 85): Python sorted is stable, and with
reverse=True entries of equal count keep their insertion order, which the
stable List.mergeSort under a count-descending comparison reproduces.  The
dict comprehension rebuilt from the sorted items preserves this order. -/
def sortDesc (t : CountTable) : CountTable := t.mergeSort countLE

/-- Records written by the emission loop in one run (script.py lines
83-89): the sorted table truncated to the first max_final_words entries. -/
def emit (t : CountTable) : CountTable := (sortDesc t).take max_final_words

/-- State of one compressed shard archive on disk before decompression. -/
inductive ShardFile
  | absent
  | corrupt
  | valid (lines : List String)
deriving DecidableEq

/-- Decoded lines the decompression loop leaves behind for one shard:
none when the archive is absent, so the .txt file is never created.  Only
meaningful when no archive is corrupt. -/
def shardLines? : ShardFile → Option (List String)
  | .absent => none
  | .corrupt => none
  | .valid ls => some ls

/-- Embedding of one iteration of the decompression loop (script.py lines
56-64): an absent archive is reported and skipped; on a corrupt archive
gzip raises an uncaught exception, aborting the script. -/
def decodeShard : ShardFile → Except Unit (Option (List String))
  | .absent => .ok none
  | .corrupt => .error ()
  | .valid ls => .ok (some ls)

/-- Decompression phase over the shards of one language, in order. -/
def decodePhase : List ShardFile → Except Unit (List (Option (List String)))
  | [] => .ok []
  | s :: ss =>
    match decodeShard s with
    | .error e => .error e
    | .ok r =>
      match decodePhase ss with
      | .error e => .error e
      | .ok rs => .ok (r :: rs)

/-- Merge-and-emit for one language given its wordlist lines and the
decoded shard files on disk: only existing files are merged, embedding the
os.path.isfile check (script.py line 74). -/
def runLang (wl : List String) (files : List (Option (List String))) :
    Except Unit CountTable :=
  match loadWordlist wl with
  | .error e => .error e
  | .ok t =>
    match mergeFiles t (files.filterMap id) with
    | .error e => .error e
    | .ok u => .ok (emit u)

/-- Full per-language pipeline: decompression of the shards followed by
wordlist load, merge and emission.  A missing wordlist file makes open
raise an uncaught FileNotFoundError (script.py line 69), embedded as
Except.error on the none case. -/
def pipeline (wl : Option (List String)) (shards : List ShardFile) :
    Except Unit CountTable :=
  match decodePhase shards with
  | .error e => .error e
  | .ok decoded =>
    match wl with
    | none => .error ()
    | some w => runLang w decoded

/-- Configuration of one language at the start of the merge phase: its
wordlist file when present, and its decoded shard files. -/
structure LangCfg where
  wordlist : Option (List String)
  files : List (List String)

/-- Merge-and-emit for one language configuration of the merge phase. -/
def mergeLang (c : LangCfg) : Except Unit CountTable :=
  match c.wordlist with
  | none => .error ()
  | some wl => runLang wl (c.files.map some)

/-- Embedding of the merge loop over all configured languages (script.py
lines 66-91): languages are processed in order and any uncaught exception
aborts the whole loop.  Returns the emitted tables of the languages
completed before any abort, and whether an abort happened. -/
def mergePhaseAll : List LangCfg → List CountTable × Bool
  | [] => ([], false)
  | c :: cs =>
    match mergeLang c with
    | .error _ => ([], true)
    | .ok out =>
      let r := mergePhaseAll cs
      (out :: r.1, r.2)

/-- Success predicate of the merge-loop body on one line relative to the
key set ks of the table: false exactly when the body would raise
IndexError or ValueError. -/
def lineOK (ks : List String) (line : String) : Bool :=
  match pySplit line with
  | [] => false
  | w :: rest =>
    if ks.contains (pyLower w) then
      match rest[1]? with
      | none => false
      | some c => (pyInt c).isSome
    else true

/-- Count contributed by one line to the key k, relative to the key set ks
of the table. -/
def lineDelta (ks : List String) (line : String) (k : String) : Int :=
  match pySplit line with
  | [] => 0
  | w :: rest =>
    if ks.contains (pyLower w) ∧ pyLower w = k then
      match rest[1]? with
      | none => 0
      | some c => (pyInt c).getD 0
    else 0

/-- Success flag of an Except value, used to describe which languages of a
run completed. -/
def exceptOk {α : Type} : Except Unit α → Bool
  | .ok _ => true
  | .error _ => false

/-! Helper lemmas about the embedding. -/

theorem map_add_zero (t : CountTable) :
    t.map (fun p => (p.1, p.2 + (0 : Int))) = t := by
  induction t with
  | nil => rfl
  | cons p ps ih => simp [ih]

theorem tkeys_map_pair (t : CountTable) (g : String × Int → Int) :
    tkeys (t.map (fun p => (p.1, g p))) = tkeys t := by
  simp [tkeys, List.map_map, Function.comp_def]

theorem length_eq_of_tkeys_eq {t u : CountTable} (h : tkeys u = tkeys t) :
    u.length = t.length := by
  have h2 := congrArg List.length h
  simpa [tkeys] using h2

theorem countLE_trans : ∀ a b c : String × Int,
    countLE a b → countLE b c → countLE a c := by
  intro a b c h1 h2
  simp only [countLE, decide_eq_true_eq] at *
  omega

theorem countLE_total : ∀ a b : String × Int, countLE a b || countLE b a := by
  intro a b
  simp only [countLE, Bool.or_eq_true, decide_eq_true_eq]
  omega

theorem emit_of_sorted (t : CountTable)
    (h : t.Pairwise (fun a b => countLE a b))
    (hlen : t.length ≤ max_final_words) : emit t = t := by
  unfold emit sortDesc
  rw [List.mergeSort_of_sorted h, List.take_of_length_le hlen]

/-- Single characterization of the merge-loop body: it raises exactly when
lineOK fails, and otherwise adds each key its lineDelta contribution. -/
theorem mergeLine_char (t : CountTable) (line : String) :
    mergeLine t line =
      if lineOK (tkeys t) line then
        .ok (t.map (fun p => (p.1, p.2 + lineDelta (tkeys t) line p.1)))
      else .error () := by
  unfold mergeLine lineOK lineDelta hasKey
  cases hs : pySplit line with
  | nil => simp
  | cons w rest =>
    by_cases hm : pyLower w ∈ tkeys t
    · have hk : (tkeys t).contains (pyLower w) = true := by simp [hm]
      cases hg : rest[1]? with
      | none => simp [hk, hg]
      | some c =>
        cases hp : pyInt c with
        | none => simp [hk, hg, hp]
        | some n =>
          simp only [hk, hg, hp, Option.isSome_some, Option.getD_some, if_true]
          congr 1
          unfold addAt
          apply List.map_congr_left
          intro p _
          by_cases hpk : p.1 = pyLower w
          · simp [hpk]
          · have h2 : ¬ (pyLower w = p.1) := fun h3 => hpk h3.symm
            simp [hpk, h2]
    · have hk : (tkeys t).contains (pyLower w) = false := by
        simp
        exact hm
      simp [hk, hm, map_add_zero]

theorem mergeLine_keys {t u : CountTable} {line : String}
    (h : mergeLine t line = .ok u) : tkeys u = tkeys t := by
  rw [mergeLine_char] at h
  by_cases h0 : lineOK (tkeys t) line = true
  · rw [if_pos h0] at h
    injection h with h2
    rw [← h2]
    exact tkeys_map_pair t _
  · rw [if_neg h0] at h
    simp at h

theorem mergeLines_ok (ls : List String) :
    ∀ t : CountTable, (∀ l ∈ ls, lineOK (tkeys t) l = true) →
      mergeLines t ls =
        .ok (t.map (fun p =>
          (p.1, p.2 + (ls.map (fun l => lineDelta (tkeys t) l p.1)).sum))) := by
  induction ls with
  | nil =>
    intro t _
    simp only [mergeLines, List.map_nil, List.sum_nil, map_add_zero]
  | cons l ls ih =>
    intro t h
    have h0 : lineOK (tkeys t) l = true := h l (List.mem_cons_self l ls)
    have hrec := ih (t.map fun p => (p.1, p.2 + lineDelta (tkeys t) l p.1))
      (by
        intro x hx
        rw [tkeys_map_pair]
        exact h x (List.mem_cons_of_mem l hx))
    have hstep : mergeLines t (l :: ls) =
        mergeLines (t.map fun p => (p.1, p.2 + lineDelta (tkeys t) l p.1)) ls := by
      simp only [mergeLines]
      rw [mergeLine_char, if_pos h0]
    rw [hstep, hrec]
    simp only [tkeys_map_pair, List.map_map]
    congr 1
    apply List.map_congr_left
    intro p _
    simp [Function.comp_def, add_assoc]

theorem mergeLines_error (ls : List String) :
    ∀ t : CountTable, (∃ l ∈ ls, lineOK (tkeys t) l = false) →
      mergeLines t ls = .error () := by
  induction ls with
  | nil => intro t h; simp at h
  | cons l ls ih =>
    intro t h
    by_cases h0 : lineOK (tkeys t) l = true
    · have hstep : mergeLines t (l :: ls) =
          mergeLines (t.map fun p => (p.1, p.2 + lineDelta (tkeys t) l p.1)) ls := by
        simp only [mergeLines]
        rw [mergeLine_char, if_pos h0]
      rw [hstep]
      apply ih
      obtain ⟨x, hx, hbad⟩ := h
      rcases List.mem_cons.mp hx with rfl | hx2
      · simp [h0] at hbad
      · exact ⟨x, hx2, by rw [tkeys_map_pair]; exact hbad⟩
    · simp only [mergeLines]
      rw [mergeLine_char, if_neg h0]

theorem mergeLines_keys (ls : List String) :
    ∀ t u : CountTable, mergeLines t ls = .ok u → tkeys u = tkeys t := by
  induction ls with
  | nil =>
    intro t u h
    simp only [mergeLines] at h
    injection h with h2
    rw [← h2]
  | cons l ls ih =>
    intro t u h
    simp only [mergeLines] at h
    rw [mergeLine_char] at h
    by_cases h0 : lineOK (tkeys t) l = true
    · rw [if_pos h0] at h
      have h3 := ih _ _ h
      rwa [tkeys_map_pair] at h3
    · rw [if_neg h0] at h
      simp at h

theorem mergeLines_append (a : List String) :
    ∀ (t : CountTable) (b : List String),
      mergeLines t (a ++ b) =
        match mergeLines t a with
        | .error e => .error e
        | .ok u => mergeLines u b := by
  induction a with
  | nil => intro t b; rfl
  | cons l ls ih =>
    intro t b
    simp only [List.cons_append, mergeLines]
    cases mergeLine t l with
    | error e => rfl
    | ok u => exact ih u b

theorem mergeFiles_eq_flatten (fs : List (List String)) :
    ∀ t : CountTable, mergeFiles t fs = mergeLines t fs.flatten := by
  induction fs with
  | nil => intro t; rfl
  | cons f fs ih =>
    intro t
    simp only [mergeFiles, List.flatten_cons, mergeLines_append]
    cases mergeLines t f with
    | error e => rfl
    | ok u => exact ih u

theorem tkeys_mergeFiles {t u : CountTable} {fs : List (List String)}
    (h : mergeFiles t fs = .ok u) : tkeys u = tkeys t := by
  rw [mergeFiles_eq_flatten] at h
  exact mergeLines_keys _ _ _ h

/-- C6: the outcome of the merge loop, including the final CountTable, does
not depend on the order in which the decoded partition files are
processed. -/
theorem mergeFiles_perm (t : CountTable) (fs1 fs2 : List (List String))
    (h : fs1.Perm fs2) : mergeFiles t fs1 = mergeFiles t fs2 := by
  rw [mergeFiles_eq_flatten, mergeFiles_eq_flatten]
  have hj : fs1.flatten.Perm fs2.flatten := h.flatten
  by_cases hall : ∀ l ∈ fs1.flatten, lineOK (tkeys t) l = true
  · have hall2 : ∀ l ∈ fs2.flatten, lineOK (tkeys t) l = true := fun l hl =>
      hall l (hj.mem_iff.mpr hl)
    rw [mergeLines_ok _ t hall, mergeLines_ok _ t hall2]
    congr 1
    apply List.map_congr_left
    intro p _
    rw [(hj.map (fun l => lineDelta (tkeys t) l p.1)).sum_eq]
  · push_neg at hall
    obtain ⟨l, hl, hbad⟩ := hall
    have hbad2 : lineOK (tkeys t) l = false := by simpa using hbad
    rw [mergeLines_error _ t ⟨l, hl, hbad2⟩,
      mergeLines_error _ t ⟨l, hj.mem_iff.mp hl, hbad2⟩]

/-- Witness for mergeFiles_perm at a concrete pair of permuted file lists. -/
theorem mergeFiles_perm_witness :
    ([["cat NOUN 5 2"], ["dog NOUN 3 1"]] : List (List String)).Perm
        [["dog NOUN 3 1"], ["cat NOUN 5 2"]] ∧
      mergeFiles [("cat", 0), ("dog", 0)] [["cat NOUN 5 2"], ["dog NOUN 3 1"]] =
        mergeFiles [("cat", 0), ("dog", 0)] [["dog NOUN 3 1"], ["cat NOUN 5 2"]] :=
  ⟨List.Perm.swap _ _ _, mergeFiles_perm _ _ _ (List.Perm.swap _ _ _)⟩

theorem pairwise_of_all {α : Type} (R : α → α → Prop) :
    ∀ l : List α, (∀ a ∈ l, ∀ b ∈ l, R a b) → l.Pairwise R := by
  intro l
  induction l with
  | nil => intro _; exact List.Pairwise.nil
  | cons a l ih =>
    intro h
    refine List.Pairwise.cons ?_ (ih ?_)
    · intro b hb
      exact h a (List.mem_cons_self a l) b (List.mem_cons_of_mem a hb)
    · intro x hx y hy
      exact h x (List.mem_cons_of_mem a hx) y (List.mem_cons_of_mem a hy)

/-- C1: end-to-end example: wordlist cat, dog; one decoded shard with the
four example lines; the pipeline emits exactly cat 7 then dog 3, and no
record for fish. -/
theorem end_to_end_example :
    pipeline (some ["cat", "dog"])
        [ShardFile.valid ["cat NOUN 5 2", "dog NOUN 3 1", "cat NOUN 2 1", "fish NOUN 9 1"]] =
      .ok [("cat", 7), ("dog", 3)] := by
  have h1 : pipeline (some ["cat", "dog"])
      [ShardFile.valid ["cat NOUN 5 2", "dog NOUN 3 1", "cat NOUN 2 1", "fish NOUN 9 1"]] =
      .ok (emit [("cat", 7), ("dog", 3)]) := rfl
  rw [h1, emit_of_sorted]
  · decide
  · decide

/-- C4: the emitted records are non-increasingly ordered by count: every
record's count is at least the next record's count. -/
theorem emit_sorted_desc (t : CountTable) :
    (emit t).Chain' (fun a b => b.2 ≤ a.2) := by
  have hp : (sortDesc t).Pairwise (fun a b => countLE a b) :=
    List.sorted_mergeSort countLE_trans countLE_total t
  have hp2 : (sortDesc t).Pairwise (fun a b : String × Int => b.2 ≤ a.2) :=
    hp.imp (fun h => by simpa [countLE] using h)
  have hp3 : (emit t).Pairwise (fun a b : String × Int => b.2 ≤ a.2) :=
    hp2.sublist (List.take_sublist _ _)
  exact hp3.chain'

/-- C5: one emission run writes at most max_final_words records, whatever
the size of the table. -/
theorem emit_bounded (t : CountTable) : (emit t).length ≤ max_final_words := by
  rw [emit, List.length_take]
  exact Nat.min_le_left _ _

/-- C9: emission is a function of the completed CountTable alone, and
records of equal count are emitted exactly in the table's insertion order,
the stable tie-break of Python's sorted. -/
theorem emit_deterministic_stable (t : CountTable) :
    emit t = emit t ∧
      ∀ c : Int, (sortDesc t).filter (fun p => decide (p.2 = c)) =
        t.filter (fun p => decide (p.2 = c)) := by
  refine ⟨rfl, fun c => ?_⟩
  have hall : ∀ a ∈ t.filter (fun p => decide (p.2 = c)), a.2 = c := by
    intro a ha
    simpa using List.of_mem_filter ha
  have hpair : (t.filter (fun p => decide (p.2 = c))).Pairwise
      (fun a b => countLE a b) := by
    apply pairwise_of_all
    intro a ha b hb
    simp [countLE, hall a ha, hall b hb]
  have hsub1 : List.Sublist (t.filter (fun p => decide (p.2 = c))) (sortDesc t) :=
    List.sublist_mergeSort countLE_trans countLE_total hpair (List.filter_sublist t)
  have hsub2 := hsub1.filter (fun p => decide (p.2 = c))
  have hEq : (t.filter (fun p => decide (p.2 = c))).filter
      (fun p => decide (p.2 = c)) = t.filter (fun p => decide (p.2 = c)) := by
    rw [List.filter_eq_self]
    intro a ha
    exact (List.mem_filter.mp ha).2
  rw [hEq] at hsub2
  have hperm : List.Perm ((sortDesc t).filter (fun p => decide (p.2 = c)))
      (t.filter (fun p => decide (p.2 = c))) :=
    (List.mergeSort_perm t countLE).filter (fun p => decide (p.2 = c))
  exact (hsub2.eq_of_length hperm.length_eq.symm).symm

theorem tkeys_setZero_mem {t : CountTable} {k0 k : String}
    (h : k ∈ tkeys (setZero t k0)) : k ∈ tkeys t ∨ k = k0 := by
  unfold setZero at h
  by_cases hk : hasKey t k0 = true
  · rw [if_pos hk] at h
    left
    have h2 : tkeys (t.map (fun p => if p.1 = k0 then (p.1, (0 : Int)) else p)) =
        tkeys t := by
      unfold tkeys
      rw [List.map_map]
      apply List.map_congr_left
      intro p _
      by_cases hp : p.1 = k0 <;> simp [hp]
    rwa [h2] at h
  · rw [if_neg hk] at h
    unfold tkeys at h
    rw [List.map_append] at h
    rcases List.mem_append.mp h with h1 | h2
    · exact Or.inl h1
    · simp at h2
      exact Or.inr h2

theorem loadWordlistAux_keys (ls : List String) :
    ∀ acc t : CountTable, loadWordlistAux acc ls = .ok t →
      ∀ k ∈ tkeys t, k ∈ tkeys acc ∨
        ∃ l ∈ ls, ∃ w, (pySplit l).head? = some w ∧ pyLower w = k := by
  induction ls with
  | nil =>
    intro acc t h k hk
    simp only [loadWordlistAux] at h
    injection h with h2
    rw [← h2] at hk
    exact Or.inl hk
  | cons l ls ih =>
    intro acc t h k hk
    simp only [loadWordlistAux] at h
    cases hw : (pySplit l).head? with
    | none => rw [hw] at h; simp at h
    | some w =>
      rw [hw] at h
      rcases ih _ _ h k hk with hin | ⟨l2, hl2, w2, hw2, hk2⟩
      · rcases tkeys_setZero_mem hin with h1 | h2
        · exact Or.inl h1
        · exact Or.inr ⟨l, List.mem_cons_self l ls, w, hw, h2.symm⟩
      · exact Or.inr ⟨l2, List.mem_cons_of_mem l hl2, w2, hw2, hk2⟩

/-- C3: every word in the emitted output is, case-insensitively, a member
of the curated wordlist: it is the lower-casing of the first field of some
wordlist line.  Corpus tokens outside the wordlist are never counted. -/
theorem filtering_invariant (wl : List String) (fs : List (List String))
    (t u : CountTable) (w : String) (c : Int)
    (hload : loadWordlist wl = .ok t)
    (hmerge : mergeFiles t fs = .ok u)
    (hmem : (w, c) ∈ emit u) :
    ∃ l ∈ wl, ∃ v, (pySplit l).head? = some v ∧ pyLower v = w := by
  have h1 : (w, c) ∈ sortDesc u := List.mem_of_mem_take hmem
  have h2 : (w, c) ∈ u := List.mem_mergeSort.mp h1
  have h3 : w ∈ tkeys u := by
    unfold tkeys
    exact List.mem_map_of_mem Prod.fst h2
  rw [tkeys_mergeFiles hmerge] at h3
  rcases loadWordlistAux_keys wl [] t hload w h3 with h4 | h4
  · simp [tkeys] at h4
  · exact h4

/-- Witness for filtering_invariant at a concrete one-word run. -/
theorem filtering_invariant_witness :
    ∃ l ∈ ["cat"], ∃ v, (pySplit l).head? = some v ∧ pyLower v = "cat" :=
  filtering_invariant ["cat"] [] [("cat", 0)] [("cat", 0)] "cat" 0 rfl rfl
    (by
      rw [emit_of_sorted]
      · exact List.mem_cons_self _ _
      · decide
      · decide)

/-- C10: whenever the table built from the wordlist has at most
max_final_words entries, every one of its words is emitted, including
words whose aggregated count stayed 0. -/
theorem all_words_emitted (wl : List String) (fs : List (List String))
    (t u : CountTable) (w : String)
    (hload : loadWordlist wl = .ok t)
    (hmerge : mergeFiles t fs = .ok u)
    (hlen : t.length ≤ max_final_words)
    (hw : w ∈ tkeys t) :
    ∃ c : Int, (w, c) ∈ emit u := by
  have hk : tkeys u = tkeys t := tkeys_mergeFiles hmerge
  have hw2 : w ∈ tkeys u := by rw [hk]; exact hw
  unfold tkeys at hw2
  rcases List.mem_map.mp hw2 with ⟨p, hp, hfst⟩
  refine ⟨p.2, ?_⟩
  have hmem : (w, p.2) ∈ u := by
    rw [← hfst]
    simpa using hp
  have hlen2 : (sortDesc u).length ≤ max_final_words := by
    unfold sortDesc
    rw [List.length_mergeSort]
    calc u.length = t.length := length_eq_of_tkeys_eq hk
      _ ≤ max_final_words := hlen
  rw [emit, List.take_of_length_le hlen2]
  exact List.mem_mergeSort.mpr hmem

/-- Witness for all_words_emitted: the word cat never occurs in the shard,
keeps count 0, and is still emitted. -/
theorem all_words_emitted_witness :
    ∃ c : Int, (("cat" : String), c) ∈ emit [("cat", 0), ("dog", 3)] :=
  all_words_emitted ["cat", "dog"] [["dog NOUN 3 1"]] [("cat", 0), ("dog", 0)]
    [("cat", 0), ("dog", 3)] "cat" rfl rfl (by decide) (by decide)

theorem mergeLines_skip_aux (line w : String)
    (hw : (pySplit line).head? = some w) (pre : List String) :
    ∀ (t : CountTable) (post : List String), hasKey t (pyLower w) = false →
      mergeLines t (pre ++ line :: post) = mergeLines t (pre ++ post) := by
  induction pre with
  | nil =>
    intro t post hnotin
    simp only [List.nil_append]
    have hskip : mergeLine t line = .ok t := by
      unfold mergeLine
      cases hs : pySplit line with
      | nil => rw [hs] at hw; simp at hw
      | cons a rest =>
        rw [hs] at hw
        simp only [List.head?_cons, Option.some.injEq] at hw
        subst hw
        simp [hnotin]
    simp only [mergeLines, hskip]
  | cons p ps ih =>
    intro t post hnotin
    simp only [List.cons_append, mergeLines]
    cases hm : mergeLine t p with
    | error e => rfl
    | ok u =>
      apply ih
      unfold hasKey
      rw [mergeLine_keys hm]
      exact hnotin

/-- C2 amended: a malformed shard line (fewer than 3 fields or a
non-integer third field) is skipped individually, leaving the other lines'
counts unaffected, only when its lower-cased first field is not a table
word; a malformed line whose word is in the table (or an entirely empty
line) raises an uncaught exception that aborts the merge of the file. -/
theorem malformed_line_skipped (t : CountTable) (line w : String)
    (pre post : List String)
    (hmal : (pySplit line).length < 3 ∨
      ∃ c, (pySplit line)[2]? = some c ∧ pyInt c = none)
    (hw : (pySplit line).head? = some w)
    (hnotin : hasKey t (pyLower w) = false) :
    mergeLines t (pre ++ line :: post) = mergeLines t (pre ++ post) :=
  mergeLines_skip_aux line w hw pre t post hnotin

/-- Witness for malformed_line_skipped: a two-field line for a word outside
the table is dropped without affecting the rest of the file. -/
theorem malformed_line_skipped_witness :
    (pySplit "fish NOUN").length < 3 ∧
      mergeLines [("cat", 0)] ["fish NOUN", "cat NOUN 5 2"] =
        mergeLines [("cat", 0)] ["cat NOUN 5 2"] :=
  ⟨by decide,
    malformed_line_skipped [("cat", 0)] "fish NOUN" "fish" [] ["cat NOUN 5 2"]
      (Or.inl (by decide)) (by decide) (by decide)⟩

/-- Counterexample to C2 as stated: a line with a non-integer count field
whose word is in the table aborts the file with an uncaught ValueError, so
the file with the malformed line does not aggregate to the same CountTable
as the file without it. -/
theorem malformed_line_counterexample :
    loadWordlist ["cat"] = .ok [("cat", 0)] ∧
      mergeLines [("cat", 0)] ["cat NOUN x", "cat NOUN 5 2"] = .error () ∧
      mergeLines [("cat", 0)] ["cat NOUN 5 2"] = .ok [("cat", 5)] ∧
      mergeLines [("cat", 0)] ["cat NOUN x", "cat NOUN 5 2"] ≠
        mergeLines [("cat", 0)] ["cat NOUN 5 2"] := by
  refine ⟨rfl, rfl, rfl, ?_⟩
  intro h
  rw [show mergeLines [("cat", 0)] ["cat NOUN x", "cat NOUN 5 2"] = .error () from rfl,
    show mergeLines [("cat", 0)] ["cat NOUN 5 2"] = .ok [("cat", 5)] from rfl] at h
  exact Except.noConfusion h

theorem decodePhase_noCorrupt (shards : List ShardFile)
    (h : ∀ s ∈ shards, s ≠ ShardFile.corrupt) :
    decodePhase shards = .ok (shards.map shardLines?) := by
  induction shards with
  | nil => rfl
  | cons s ss ih =>
    have hss : ∀ x ∈ ss, x ≠ ShardFile.corrupt := fun x hx =>
      h x (List.mem_cons_of_mem s hx)
    cases s with
    | absent =>
      simp only [decodePhase, decodeShard, ih hss, List.map_cons, shardLines?]
    | corrupt => exact absurd rfl (h _ (List.mem_cons_self _ _))
    | valid ls =>
      simp only [decodePhase, decodeShard, ih hss, List.map_cons, shardLines?]

/-- C7 amended: only a missing shard archive is skipped: when no archive is
corrupt, aggregation proceeds over the decoded partitions and, given a
loadable non-empty wordlist table and cleanly merging lines, succeeds and
emits a non-empty output.  A corrupt archive instead aborts the run
uncaught, so no partition is aggregated (see the counterexample). -/
theorem decode_failure_tolerance (wl : List String) (shards : List ShardFile)
    (t u : CountTable)
    (hnc : ∀ s ∈ shards, s ≠ ShardFile.corrupt)
    (hload : loadWordlist wl = .ok t)
    (hne : t ≠ [])
    (hmerge : mergeFiles t ((shards.map shardLines?).filterMap id) = .ok u) :
    pipeline (some wl) shards = .ok (emit u) ∧ emit u ≠ [] := by
  constructor
  · simp only [pipeline, decodePhase_noCorrupt shards hnc, runLang, hload, hmerge]
  · have hk : tkeys u = tkeys t := tkeys_mergeFiles hmerge
    have hlenu : u.length = t.length := length_eq_of_tkeys_eq hk
    have hu : u ≠ [] := by
      intro h0
      rw [h0] at hlenu
      cases t with
      | nil => exact hne rfl
      | cons a l => simp at hlenu
    intro h0
    unfold emit sortDesc at h0
    rcases List.take_eq_nil_iff.mp h0 with h1 | h1
    · exact absurd h1 (by decide)
    · have hp := List.mergeSort_perm u countLE
      rw [h1] at hp
      exact hu hp.symm.eq_nil

/-- Witness for decode_failure_tolerance: an absent first shard is skipped
and the valid second shard is aggregated into a non-empty output. -/
theorem decode_failure_tolerance_witness :
    pipeline (some ["cat"]) [ShardFile.absent, ShardFile.valid ["cat NOUN 5 2"]] =
        .ok (emit [("cat", 5)]) ∧ emit [("cat", 5)] ≠ [] :=
  decode_failure_tolerance ["cat"] [ShardFile.absent, ShardFile.valid ["cat NOUN 5 2"]]
    [("cat", 0)] [("cat", 5)] (by decide) rfl (by decide) rfl

/-- Counterexample to C7 as stated: with a corrupt first shard and a valid
second one the whole run errors out instead of skipping only the corrupt
partition, and no output is produced at all. -/
theorem decode_failure_counterexample :
    pipeline (some ["cat"]) [ShardFile.corrupt, ShardFile.valid ["cat NOUN 5 2"]] =
        .error () ∧
      ¬ ∃ out : CountTable,
        pipeline (some ["cat"]) [ShardFile.corrupt, ShardFile.valid ["cat NOUN 5 2"]] =
          .ok out ∧ out ≠ [] := by
  refine ⟨rfl, ?_⟩
  rintro ⟨out, hout, -⟩
  rw [show pipeline (some ["cat"]) [ShardFile.corrupt, ShardFile.valid ["cat NOUN 5 2"]] =
      .error () from rfl] at hout
  exact Except.noConfusion hout

/-- C8 amended: a missing wordlist is fatal for its language and aborts the
merge loop: languages earlier in the configured order have already
completed with exactly their own outputs, while the failing language and
every later language produce no output. -/
theorem missing_wordlist_aborts (pre rest : List LangCfg) (bad : LangCfg)
    (hpre : ∀ c ∈ pre, exceptOk (mergeLang c) = true)
    (hbad : bad.wordlist = none) :
    mergePhaseAll (pre ++ bad :: rest) =
      (pre.filterMap (fun c => (mergeLang c).toOption), true) := by
  induction pre with
  | nil =>
    simp only [List.nil_append, mergePhaseAll, mergeLang, hbad, List.filterMap_nil]
  | cons c cs ih =>
    have hc := hpre c (List.mem_cons_self c cs)
    cases hm : mergeLang c with
    | error e => rw [hm] at hc; simp [exceptOk] at hc
    | ok out =>
      have ih2 := ih (fun x hx => hpre x (List.mem_cons_of_mem c hx))
      simp only [List.cons_append, mergePhaseAll, hm]
      simp [ih2, Except.toOption, hm]

/-- Witness for missing_wordlist_aborts: the first language completes, the
second has no wordlist, the third never runs. -/
theorem missing_wordlist_aborts_witness :
    mergePhaseAll [⟨some ["cat"], []⟩, ⟨none, []⟩, ⟨some ["dog"], []⟩] =
      (([(⟨some ["cat"], []⟩ : LangCfg)]).filterMap
        (fun c => (mergeLang c).toOption), true) :=
  missing_wordlist_aborts [⟨some ["cat"], []⟩] [⟨some ["dog"], []⟩] ⟨none, []⟩
    (by decide) rfl

/-- Counterexample to C8 as stated: when the first language's wordlist is
missing, the second language produces no output either, although on its
own it would have succeeded. -/
theorem missing_wordlist_counterexample :
    mergePhaseAll [⟨none, [["cat NOUN 5 2"]]⟩, ⟨some ["cat"], [["cat NOUN 5 2"]]⟩] =
        ([], true) ∧
      mergeLang ⟨some ["cat"], [["cat NOUN 5 2"]]⟩ = .ok [("cat", 5)] := by
  constructor
  · rfl
  · have h1 : mergeLang ⟨some ["cat"], [["cat NOUN 5 2"]]⟩ =
        .ok (emit [("cat", 5)]) := rfl
    rw [h1, emit_of_sorted]
    · decide
    · decide

end FreqDict
